import Mathlib

set_option maxHeartbeats 1000000

/-!
Verification development for the stretchbox constraint-based box-layout
engine.  The data model and the layout algorithms are translated from
src/src/lib.rs and src/src/solver/mod.rs; floating-point lengths are
embedded as rationals, Rust panics (`unwrap`, `todo!`, `unreachable!`)
as `Option.none`, and the unbounded recursion of the solver is made
total with an explicit fuel parameter.  The external keyed-tree
container (the `cherrytree` crate, out of scope of the repository) is
modelled from its contract in the specification.
-/

/-! ### Data model (src/src/lib.rs) -/

inductive FillType : Type where
  | Exact (v : ℚ)
  | Scale (w : ℕ)
  | Minimize
deriving DecidableEq

inductive Fill : Type where
  | Absolute (x y : FillType)
  | Relative (main cross : FillType)
deriving DecidableEq

inductive Direction : Type where
  | Horizontal
  | Vertical
deriving DecidableEq

inductive Align : Type where
  | Start
  | Middle
  | End
deriving DecidableEq

structure Padding where
  left : ℚ
  right : ℚ
  top : ℚ
  bottom : ℚ
deriving DecidableEq

structure Content where
  direction : Direction
  padding : Padding
  align_main : Align
  align_cross : Align
deriving DecidableEq

structure Constraint where
  fill : Fill
  content : Content
deriving DecidableEq

structure Frame where
  offset_x : ℚ
  length_x : ℚ
  offset_y : ℚ
  length_y : ℚ
deriving DecidableEq

structure RelativeFill where
  main : FillType
  cross : FillType
deriving DecidableEq

structure AbsoluteFill where
  x : FillType
  y : FillType
deriving DecidableEq

/-- Rust `FillType::default()` is `Scale(1)`. -/
def defaultFillType : FillType := .Scale 1

/-- Rust `Fill::default()` is `Relative` with default fill types. -/
def defaultFill : Fill := .Relative defaultFillType defaultFillType

/-- Rust `Padding::default()` is all zeroes. -/
def defaultPadding : Padding := ⟨0, 0, 0, 0⟩

/-- Rust `Content::default()`: direction `Vertical`, zero padding, both
alignments `Start`. -/
def defaultContent : Content := ⟨.Vertical, defaultPadding, .Start, .Start⟩

/-- Rust `Constraint::default()`. -/
def defaultConstraint : Constraint := ⟨defaultFill, defaultContent⟩

/-- Translated from `Fill::to_relative_fill` in src/src/lib.rs. -/
def Fill.to_relative_fill : Fill → Direction → RelativeFill
  | .Absolute x y, .Horizontal => ⟨x, y⟩
  | .Absolute x y, .Vertical => ⟨y, x⟩
  | .Relative m c, _ => ⟨m, c⟩

/-- Modelled from the spec: `Fill::to_absolute_fill` is called by the solver
(src/src/solver/mod.rs) but its definition is not present under src/.  Per
the axis-normalization contract (spec sections 2, 4.2 and 9) it converts a
fill to screen-absolute form for a given flow direction, as the inverse of
the `to_relative_fill` conversion that is present in src/src/lib.rs:
`Relative` fills map `main`/`cross` onto x/y according to the direction. -/
def Fill.to_absolute_fill : Fill → Direction → AbsoluteFill
  | .Absolute x y, _ => ⟨x, y⟩
  | .Relative m c, .Horizontal => ⟨m, c⟩
  | .Relative m c, .Vertical => ⟨c, m⟩

/-- Modelled from the spec: `Fill::to_absolute_fill_horizontal`, also absent
from src/, is the specialization of `to_absolute_fill` to the horizontal
flow direction. -/
def Fill.to_absolute_fill_horizontal (f : Fill) : AbsoluteFill :=
  f.to_absolute_fill .Horizontal

/-! ### Association-list helpers

Used both for the key map (`BTreeMap<ConstraintKey, FrameKey>`) and for the
node storage of the modelled keyed-tree container.  Lookup returns the first
matching entry; insert overwrites an existing binding or appends. -/

def assocLookup {β : Type} : List (ℕ × β) → ℕ → Option β
  | [], _ => none
  | p :: rest, k => if p.1 = k then some p.2 else assocLookup rest k

def assocInsert {β : Type} (m : List (ℕ × β)) (k : ℕ) (v : β) : List (ℕ × β) :=
  if (assocLookup m k).isSome then
    m.map (fun p => if p.1 = k then (k, v) else p)
  else
    m ++ [(k, v)]

/-! ### Keyed-tree container

Modelled from the spec (section 2): the generic keyed-tree container used by
the facade is the external `cherrytree` crate, out of scope of the
repository; it holds nodes addressed by stable opaque keys and supports root
insertion, child insertion under a parent key, subtree removal, reordering
of the children of a node, re-parenting, value replacement and ordered
iteration of the children of a node.  Keys are modelled as naturals handed
out by a counter; inserting a root replaces the whole tree, which keeps the
"at most one root" invariant of spec section 3; capacity and size hints are
performance-only and ignored. -/

structure KNode (α : Type) where
  value : α
  childKeys : List ℕ
deriving DecidableEq

structure KTree (α : Type) where
  rootKey : Option ℕ
  nodes : List (ℕ × KNode α)
  nextKey : ℕ
deriving DecidableEq

def KTree.empty {α : Type} : KTree α := ⟨none, [], 0⟩

def KTree.lookupNode {α : Type} (t : KTree α) (k : ℕ) : Option (KNode α) :=
  assocLookup t.nodes k

def KTree.containsKey {α : Type} (t : KTree α) (k : ℕ) : Bool :=
  (t.lookupNode k).isSome

def KTree.isEmptyTree {α : Type} (t : KTree α) : Bool :=
  t.nodes.isEmpty

/-- Modelled from the spec: root insertion into the keyed-tree container.
The new root takes over the tree (spec section 3 allows at most one root);
the capacity hint is ignored. -/
def KTree.insert_root_with_capacity {α : Type} (t : KTree α) (v : α)
    (_capacity : ℕ) : ℕ × KTree α :=
  (t.nextKey, ⟨some t.nextKey, [(t.nextKey, ⟨v, []⟩)], t.nextKey + 1⟩)

/-- Modelled from the spec: child insertion under a parent key; fails with
`none` when the parent key is absent, leaving the tree untouched. -/
def KTree.insert_with_capacity {α : Type} (t : KTree α) (v : α) (pk : ℕ)
    (_capacity : ℕ) : Option ℕ × KTree α :=
  match t.lookupNode pk with
  | none => (none, t)
  | some pn =>
      let k := t.nextKey
      let nodes' :=
        (t.nodes.map (fun p =>
          if p.1 = pk then (p.1, ⟨pn.value, pn.childKeys ++ [k]⟩) else p))
          ++ [(k, ⟨v, []⟩)]
      (some k, ⟨t.rootKey, nodes', k + 1⟩)

/-- Modelled from the spec: value replacement; fails when the key is absent. -/
def KTree.setValue {α : Type} (t : KTree α) (k : ℕ) (v : α) :
    Option α × KTree α :=
  match t.lookupNode k with
  | none => (none, t)
  | some nd =>
      (some nd.value,
        ⟨t.rootKey,
          t.nodes.map (fun p => if p.1 = k then (p.1, ⟨v, nd.childKeys⟩) else p),
          t.nextKey⟩)

/-- Fueled breadth of the subtree below a work list of keys; enough fuel is
supplied by the callers for any well-formed tree. -/
def KTree.subtreeKeysAux {α : Type} (t : KTree α) : ℕ → List ℕ → List ℕ
  | 0, _ => []
  | _ + 1, [] => []
  | f + 1, k :: ks =>
      match t.lookupNode k with
      | none => k :: t.subtreeKeysAux f ks
      | some nd => k :: t.subtreeKeysAux f (nd.childKeys ++ ks)

/-- Modelled from the spec: subtree removal; fails when the key is absent.
All keys of the subtree disappear from the node store and from every
child-key list; the size hint is ignored. -/
def KTree.removeKey {α : Type} (t : KTree α) (k : ℕ) (_sizeHint : Option ℕ) :
    Option α × KTree α :=
  match t.lookupNode k with
  | none => (none, t)
  | some nd =>
      let sub := t.subtreeKeysAux (t.nodes.length + 1) [k]
      let nodes' :=
        (t.nodes.filter (fun p => ¬ p.1 ∈ sub)).map
          (fun p => (p.1, ⟨p.2.value, p.2.childKeys.filter (fun c => ¬ c ∈ sub)⟩))
      let root' := if t.rootKey = some k then none else t.rootKey
      (some nd.value, ⟨root', nodes', t.nextKey⟩)

/-- Modelled from the spec: replaces the child order of a node with a
caller-supplied permutation of the same key set; fails when the key is
absent or the supplied list is not a permutation of the current children. -/
def KTree.reorder_children {α : Type} (t : KTree α) (k : ℕ)
    (f : List ℕ → List ℕ) : Bool × KTree α :=
  match t.lookupNode k with
  | none => (false, t)
  | some nd =>
      let l := f nd.childKeys
      let ok := (l.length = nd.childKeys.length : Bool)
        && l.all (fun x => nd.childKeys.contains x)
        && nd.childKeys.all (fun x => l.contains x)
      if ok then
        (true,
          ⟨t.rootKey,
            t.nodes.map (fun p => if p.1 = k then (p.1, ⟨nd.value, l⟩) else p),
            t.nextKey⟩)
      else (false, t)

/-- Modelled from the spec: re-parents a subtree; fails when either key is
absent or the move would create a cycle (the new parent lies inside the
moved subtree). -/
def KTree.rebase {α : Type} (t : KTree α) (k pk : ℕ) : Bool × KTree α :=
  match t.lookupNode k, t.lookupNode pk with
  | some _, some _ =>
      let sub := t.subtreeKeysAux (t.nodes.length + 1) [k]
      if pk ∈ sub then (false, t)
      else
        (true,
          ⟨t.rootKey,
            t.nodes.map (fun p =>
              if p.1 = pk then
                (p.1, ⟨p.2.value, p.2.childKeys.filter (fun c => c ≠ k) ++ [k]⟩)
              else
                (p.1, ⟨p.2.value, p.2.childKeys.filter (fun c => c ≠ k)⟩)),
            t.nextKey⟩)
  | _, _ => (false, t)

def KTree.root_key_value {α : Type} (t : KTree α) : Option (ℕ × KNode α) :=
  match t.rootKey with
  | none => none
  | some k => (t.lookupNode k).map (fun nd => (k, nd))

def KTree.clearTree {α : Type} (t : KTree α) : KTree α :=
  ⟨none, [], t.nextKey⟩

/-! ### Layout solver (src/src/solver/mod.rs)

The Rust solver recurses without a termination guarantee (and indeed, one of
the claims below exhibits an input on which it does not terminate), so every
recursive function takes a fuel parameter; running out of fuel yields
`none`, as do the panics of the source (`todo!`, `unreachable!`, `unwrap`
failures).  Each function patterns-matches on its fuel and hands `f` to
every call it makes, so fuel strictly decreases everywhere. -/

/-- Translated from `generate_content_frame` in src/src/solver/mod.rs. -/
def generate_content_frame (padding : Padding) (length_x length_y : ℚ) : Frame :=
  let content_start_x := min padding.left length_x
  let content_end_x := max (length_x - padding.right) 0
  let content_length_x := max (content_end_x - content_start_x) 0
  let content_start_y := min padding.top length_y
  let content_end_y := max (length_y - padding.bottom) 0
  let content_length_y := max (content_end_y - content_start_y) 0
  ⟨content_start_x, content_length_x, content_start_y, content_length_y⟩

/-- Per-child record produced by the first (main-axis) pass of
`solve_child_keys`: the normalized fill, the main length decided so far
(`none` for a deferred `Scale` child), the cross length and the cross
offset. -/
structure PassEntry where
  af : AbsoluteFill
  length_x : Option ℚ
  length_y : ℚ
  offset_y : ℚ
deriving DecidableEq

mutual

/-- Translated from `find_minimizing_length` in src/src/solver/mod.rs
(lines 203-260).  The `Vertical` branch of the source is `todo!()`, hence
`none`.  Note that the recursive calls of the source (lines 228 and 240)
pass `constraint_keys` — the sibling set being iterated — not the child
keys of the node under scrutiny; the translation preserves this. -/
def find_minimizing_length (t : KTree Constraint) :
    ℕ → List ℕ → Direction → ℚ → ℚ → Option (ℚ × ℚ)
  | 0, _, _, _, _ => none
  | f + 1, keys, .Horizontal, max_length_x, max_length_y => do
      let (rem, maxy) ← fmlLoop t f keys keys max_length_x 0 max_length_y
      pure (max_length_x - rem, min maxy max_length_y)
  | _ + 1, _, .Vertical, _, _ => none

/-- Loop body of `find_minimizing_length` over the sibling keys; carries the
running `remaining_length_x` and `max_seen_length_y` of the source. -/
def fmlLoop (t : KTree Constraint) :
    ℕ → List ℕ → List ℕ → ℚ → ℚ → ℚ → Option (ℚ × ℚ)
  | 0, _, _, _, _, _ => none
  | _ + 1, _, [], rem, maxy, _ => some (rem, maxy)
  | f + 1, allKeys, k :: ks, rem, maxy, max_length_y => do
      let nd ← t.lookupNode k
      let p := nd.value.content.padding
      let af := nd.value.fill.to_absolute_fill_horizontal
      let (lx0, cache) ←
        (match af.x with
          | .Exact exact_x => some (exact_x + p.left + p.right, (none : Option ℚ))
          | .Scale _ => some (p.left + p.right, (none : Option ℚ))
          | .Minimize => do
              let (sx, sy) ← find_minimizing_length t f allKeys
                nd.value.content.direction rem max_length_y
              pure (sx + p.left + p.right, some sy))
      let length_x := min lx0 rem
      let length_y ←
        (match af.y with
          | .Exact exact_y => some (exact_y + p.top + p.bottom)
          | .Scale _ => some (p.top + p.bottom)
          | .Minimize =>
              match cache with
              | some sy => some sy
              | none => do
                  let (_, sy) ← find_minimizing_length t f allKeys
                    nd.value.content.direction rem max_length_y
                  pure sy)
      fmlLoop t f allKeys ks (rem - length_x) (max maxy length_y) max_length_y

end

/-- Second (pure) pass of `solve_child_keys` (source lines 139-162):
computes the shared main offset of all children; when the weight total is
nonzero it also assigns each `Scale` child its proportional share of the
remaining main length. -/
def scgPhaseB (entries : List PassEntry) (content_frame : Frame)
    (parent_content : Content) (rem : ℚ) (total : ℕ) : ℚ × List PassEntry :=
  match total with
  | 0 =>
      (content_frame.offset_x +
        (if rem = 0 then 0
         else
           match parent_content.align_main with
           | .Start => 0
           | .Middle => rem / 2
           | .End => rem),
        entries)
  | _ =>
      (content_frame.offset_x,
        entries.map (fun e =>
          match e.af.x with
          | .Scale w => { e with length_x := some (((w : ℚ) / (total : ℚ)) * rem) }
          | _ => e))

mutual

/-- Translated from `solve_child_keys` in src/src/solver/mod.rs
(lines 72-201).  The `Vertical` branch of the source is `todo!()`, hence
`none`.  The state threaded through is the frame tree and the
constraint-key to frame-key map. -/
def solve_child_keys (t : KTree Constraint) :
    ℕ → List ℕ → ℕ → Frame → Content → KTree Frame → List (ℕ × ℕ) →
    Option (KTree Frame × List (ℕ × ℕ))
  | 0, _, _, _, _, _, _ => none
  | f + 1, keys, parent_frame_key, content_frame, parent_content, ft, km =>
      match parent_content.direction with
      | .Vertical => none
      | .Horizontal => do
          let (entries, rem, total) ←
            scgLoopA t f keys content_frame parent_content content_frame.length_x 0
          let (offset_x, entries') :=
            scgPhaseB entries content_frame parent_content rem total
          scgLoopC t f keys entries' offset_x parent_frame_key ft km

/-- First pass of `solve_child_keys` (source lines 86-137): walks the
children in order, consuming `Exact` and `Minimize` main lengths from the
remaining main length, accumulating the `Scale` weight total, and computing
each cross length and cross offset. -/
def scgLoopA (t : KTree Constraint) :
    ℕ → List ℕ → Frame → Content → ℚ → ℕ →
    Option (List PassEntry × ℚ × ℕ)
  | 0, _, _, _, _, _ => none
  | _ + 1, [], _, _, rem, total => some ([], rem, total)
  | f + 1, k :: ks, content_frame, parent_content, rem, total => do
      let nd ← t.lookupNode k
      let af := nd.value.fill.to_absolute_fill_horizontal
      let (length_x, cache, rem', total') ←
        (match af.x with
          | .Exact exact_x =>
              let e := min exact_x rem
              some (some e, (none : Option ℚ), rem - e, total)
          | .Scale w => some ((none : Option ℚ), (none : Option ℚ), rem, total + w)
          | .Minimize => do
              let (mx, my) ← find_minimizing_length t f nd.childKeys
                nd.value.content.direction rem content_frame.length_y
              pure (some mx, some my, rem - mx, total))
      let length_y ←
        (match af.y with
          | .Exact exact_y => some (min exact_y content_frame.length_y)
          | .Scale w => some (if w = 0 then 0 else content_frame.length_y)
          | .Minimize =>
              match cache with
              | some my => some my
              | none => do
                  let (_, my) ← find_minimizing_length t f nd.childKeys
                    nd.value.content.direction rem' content_frame.length_y
                  pure my)
      let remaining_length_y := content_frame.length_y - length_y
      let offset_y := content_frame.offset_y +
        (if remaining_length_y = 0 then 0
         else
           match parent_content.align_cross with
           | .Start => 0
           | .Middle => remaining_length_y / 2
           | .End => remaining_length_y)
      let (rest, remFinal, totalFinal) ←
        scgLoopA t f ks content_frame parent_content rem' total'
      pure (⟨af, length_x, length_y, offset_y⟩ :: rest, remFinal, totalFinal)

/-- Third pass of `solve_child_keys` (source lines 164-197): builds each
frame at the single `offset_x` computed by `scgPhaseB`, inserts it in the
frame tree under the parent frame key, records the key correlation,
computes the content rectangle of the child and recurses into its
children. -/
def scgLoopC (t : KTree Constraint) :
    ℕ → List ℕ → List PassEntry → ℚ → ℕ → KTree Frame → List (ℕ × ℕ) →
    Option (KTree Frame × List (ℕ × ℕ))
  | 0, _, _, _, _, _, _ => none
  | _ + 1, [], _, _, _, ft, km => some (ft, km)
  | _ + 1, _ :: _, [], _, _, ft, km => some (ft, km)
  | f + 1, k :: ks, e :: es, offset_x, parent_frame_key, ft, km => do
      let nd ← t.lookupNode k
      let length_x := e.length_x.getD 0
      let frame : Frame := ⟨offset_x, length_x, e.offset_y, e.length_y⟩
      let (res, ft') := ft.insert_with_capacity frame parent_frame_key nd.childKeys.length
      let frame_key ← res
      let km' := assocInsert km k frame_key
      let content_frame :=
        generate_content_frame nd.value.content.padding frame.length_x frame.length_y
      let (ft'', km'') ← solve_child_keys t f nd.childKeys frame_key
        content_frame nd.value.content ft' km'
      scgLoopC t f ks es offset_x parent_frame_key ft'' km''

end

/-- Translated from `solve` in src/src/solver/mod.rs (lines 11-70): resolves
the root fill against the ambient `Vertical` direction (both axes must be
`Scale`, otherwise the source hits `unreachable!`), inserts the root frame,
records its correlation and solves the children. -/
def solveTree (t : KTree Constraint) (fuel : ℕ) (ft : KTree Frame)
    (km : List (ℕ × ℕ)) (length_x length_y : ℚ) :
    Option (KTree Frame × List (ℕ × ℕ)) := do
  let (root_key, root_node) ← t.root_key_value
  let af := root_node.value.fill.to_absolute_fill .Vertical
  let lx ←
    (match af.x with
      | .Scale 0 => some 0
      | .Scale _ => some length_x
      | _ => none)
  let ly ←
    (match af.y with
      | .Scale 0 => some 0
      | .Scale _ => some length_y
      | _ => none)
  let root_frame : Frame := ⟨0, lx, 0, ly⟩
  let (root_frame_key, ft') :=
    ft.insert_root_with_capacity root_frame root_node.childKeys.length
  let km' := assocInsert km root_key root_frame_key
  let content_frame := generate_content_frame root_node.value.content.padding lx ly
  solve_child_keys t fuel root_node.childKeys root_frame_key content_frame
    root_node.value.content ft' km'

/-! ### Tree store and dirty cache facade (src/src/lib.rs)

The `Solver` struct and its methods are translated directly from
src/src/lib.rs; each Rust method taking `&mut self` becomes a function from
the old state to a result paired with the new state. -/

structure Solver where
  constraint_tree : KTree Constraint
  frame_tree : KTree Frame
  key_map : List (ℕ × ℕ)
  is_dirty : Bool
deriving DecidableEq

/-- Rust `Solver::default()`. -/
def Solver.emptySolver : Solver := ⟨KTree.empty, KTree.empty, [], false⟩

def Solver.is_empty (s : Solver) : Bool := s.constraint_tree.isEmptyTree

def Solver.contains (s : Solver) (k : ℕ) : Bool := s.constraint_tree.containsKey k

/-- Translated from `Solver::insert_root_with_capacity` (src/src/lib.rs
lines 55-72): the fill must be `Scale` on both components, either in
`Absolute` or in `Relative` form; otherwise the insertion is rejected and
nothing changes. -/
def Solver.insert_root_with_capacity (s : Solver) (c : Constraint)
    (capacity : ℕ) : Option ℕ × Solver :=
  let both_fills_are_absolute_scales :=
    match c.fill with
    | .Absolute (.Scale _) (.Scale _) => true
    | _ => false
  let both_fills_are_relative_scales :=
    match c.fill with
    | .Relative (.Scale _) (.Scale _) => true
    | _ => false
  let both_fills_are_scales :=
    both_fills_are_absolute_scales || both_fills_are_relative_scales
  if both_fills_are_scales then
    let (root_key, t') := s.constraint_tree.insert_root_with_capacity c capacity
    (some root_key, { s with constraint_tree := t', is_dirty := true })
  else
    (none, s)

def Solver.insert_root (s : Solver) (c : Constraint) : Option ℕ × Solver :=
  s.insert_root_with_capacity c 0

/-- Translated from `Solver::insert_with_capacity` (src/src/lib.rs
lines 82-95). -/
def Solver.insert_with_capacity (s : Solver) (c : Constraint) (pk : ℕ)
    (capacity : ℕ) : Option ℕ × Solver :=
  let (res, t') := s.constraint_tree.insert_with_capacity c pk capacity
  if res.isSome then
    (res, { s with constraint_tree := t', is_dirty := true })
  else
    (res, { s with constraint_tree := t' })

def Solver.insert (s : Solver) (c : Constraint) (pk : ℕ) : Option ℕ × Solver :=
  s.insert_with_capacity c pk 0

/-- Translated from `Solver::reorder_children` (src/src/lib.rs lines 97-112). -/
def Solver.reorder_children (s : Solver) (k : ℕ) (f : List ℕ → List ℕ) :
    Bool × Solver :=
  let (did, t') := s.constraint_tree.reorder_children k f
  if did then
    (did, { s with constraint_tree := t', is_dirty := true })
  else
    (did, { s with constraint_tree := t' })

/-- Translated from `Solver::remove` (src/src/lib.rs lines 114-124). -/
def Solver.remove (s : Solver) (k : ℕ) (size_hint : Option ℕ) :
    Option Constraint × Solver :=
  let (old, t') := s.constraint_tree.removeKey k size_hint
  if old.isSome then
    (old, { s with constraint_tree := t', is_dirty := true })
  else
    (old, { s with constraint_tree := t' })

/-- Translated from `Solver::rebase` (src/src/lib.rs lines 126-138). -/
def Solver.rebase (s : Solver) (k pk : ℕ) : Bool × Solver :=
  let (did, t') := s.constraint_tree.rebase k pk
  if did then
    (did, { s with constraint_tree := t', is_dirty := true })
  else
    (did, { s with constraint_tree := t' })

/-- Translated from `Solver::clear` (src/src/lib.rs lines 140-145). -/
def Solver.clear (s : Solver) : Solver :=
  ⟨s.constraint_tree.clearTree, s.frame_tree.clearTree, [], false⟩

def Solver.get (s : Solver) (k : ℕ) : Option (KNode Constraint) :=
  s.constraint_tree.lookupNode k

/-- Translated from `Solver::get_frame` (src/src/lib.rs lines 166-181): the
two `unwrap` calls of the source become `Option` binds. -/
def Solver.get_frame (s : Solver) (k : ℕ) : Option Frame :=
  match s.constraint_tree.containsKey k, s.is_dirty with
  | false, _ => none
  | true, true => none
  | true, false => do
      let fk ← assocLookup s.key_map k
      let nd ← s.frame_tree.lookupNode fk
      pure nd.value

/-- Translated from `Solver::set` (src/src/lib.rs lines 183-193). -/
def Solver.set (s : Solver) (k : ℕ) (c : Constraint) :
    Option Constraint × Solver :=
  let (old, t') := s.constraint_tree.setValue k c
  if old.isSome then
    (old, { s with constraint_tree := t', is_dirty := true })
  else
    (old, { s with constraint_tree := t' })

/-- Translated from `Solver::solve` (src/src/lib.rs lines 197-221): a no-op
when not dirty; on a dirty empty tree only the flag is cleared; otherwise
the lengths are clamped to non-negative and the layout solver runs.  A
`none` result models a panic of the layout solver (or fuel exhaustion of
the embedding), in which case the flag is never cleared. -/
def Solver.solve (s : Solver) (length_x length_y : ℚ) (fuel : ℕ) :
    Option Solver :=
  match s.is_dirty, s.constraint_tree.isEmptyTree with
  | true, true => some { s with is_dirty := false }
  | true, false =>
      let length_x := max length_x 0
      let length_y := max length_y 0
      match solveTree s.constraint_tree fuel s.frame_tree s.key_map length_x length_y with
      | none => none
      | some (ft', km') =>
          some { s with frame_tree := ft', key_map := km', is_dirty := false }
  | false, _ => some s

/-! ### Specification-side definitions

These definitions follow the words of the spec rather than the source; each
is used only to state a claim against the corresponding source definition. -/

/-- Modelled from the spec (section 3): a root fill is acceptable exactly
when it normalizes, under the assumed vertical ambient direction, to
`Scale` on both absolute axes. -/
def rootFillNormalizesToScales (f : Fill) : Prop :=
  match f.to_absolute_fill .Vertical with
  | ⟨.Scale _, .Scale _⟩ => True
  | _ => False

instance (f : Fill) : Decidable (rootFillNormalizesToScales f) :=
  match h : f.to_absolute_fill .Vertical with
  | ⟨.Scale _, .Scale _⟩ => .isTrue (by unfold rootFillNormalizesToScales; rw [h]; trivial)
  | ⟨.Exact _, _⟩ => .isFalse (by unfold rootFillNormalizesToScales; rw [h]; simp)
  | ⟨.Minimize, _⟩ => .isFalse (by unfold rootFillNormalizesToScales; rw [h]; simp)
  | ⟨.Scale _, .Exact _⟩ => .isFalse (by unfold rootFillNormalizesToScales; rw [h]; simp)
  | ⟨.Scale _, .Minimize⟩ => .isFalse (by unfold rootFillNormalizesToScales; rw [h]; simp)

mutual

/-- Modelled from the spec (section 4.3): the Minimize Resolver as the
specification words it, for comparison with the source
`find_minimizing_length`.  It is identical to the source translation above
except in the `Minimize` branches, which recurse into the child keys of the
node under scrutiny — "recurses into that child's own children" — instead
of into the sibling set being iterated. -/
def find_minimizing_length_spec (t : KTree Constraint) :
    ℕ → List ℕ → Direction → ℚ → ℚ → Option (ℚ × ℚ)
  | 0, _, _, _, _ => none
  | f + 1, keys, .Horizontal, max_length_x, max_length_y => do
      let (rem, maxy) ← fmlSpecLoop t f keys max_length_x 0 max_length_y
      pure (max_length_x - rem, min maxy max_length_y)
  | _ + 1, _, .Vertical, _, _ => none

/-- Loop of `find_minimizing_length_spec` over the sibling keys. -/
def fmlSpecLoop (t : KTree Constraint) :
    ℕ → List ℕ → ℚ → ℚ → ℚ → Option (ℚ × ℚ)
  | 0, _, _, _, _ => none
  | _ + 1, [], rem, maxy, _ => some (rem, maxy)
  | f + 1, k :: ks, rem, maxy, max_length_y => do
      let nd ← t.lookupNode k
      let p := nd.value.content.padding
      let af := nd.value.fill.to_absolute_fill_horizontal
      let (lx0, cache) ←
        (match af.x with
          | .Exact exact_x => some (exact_x + p.left + p.right, (none : Option ℚ))
          | .Scale _ => some (p.left + p.right, (none : Option ℚ))
          | .Minimize => do
              let (sx, sy) ← find_minimizing_length_spec t f nd.childKeys
                nd.value.content.direction rem max_length_y
              pure (sx + p.left + p.right, some sy))
      let length_x := min lx0 rem
      let length_y ←
        (match af.y with
          | .Exact exact_y => some (exact_y + p.top + p.bottom)
          | .Scale _ => some (p.top + p.bottom)
          | .Minimize =>
              match cache with
              | some sy => some sy
              | none => do
                  let (_, sy) ← find_minimizing_length_spec t f nd.childKeys
                    nd.value.content.direction rem max_length_y
                  pure sy)
      fmlSpecLoop t f ks (rem - length_x) (max maxy length_y) max_length_y

end

/-! ### Predicates used in the statements -/

/-- A fill type whose `Exact` payload, if any, is non-negative. -/
def FillType.nonneg : FillType → Prop
  | .Exact v => 0 ≤ v
  | .Scale _ => True
  | .Minimize => True

instance (ft : FillType) : Decidable ft.nonneg :=
  match ft with
  | .Exact v => inferInstanceAs (Decidable (0 ≤ v))
  | .Scale _ => inferInstanceAs (Decidable True)
  | .Minimize => inferInstanceAs (Decidable True)

def Fill.nonneg : Fill → Prop
  | .Absolute x y => x.nonneg ∧ y.nonneg
  | .Relative m c => m.nonneg ∧ c.nonneg

instance (f : Fill) : Decidable f.nonneg :=
  match f with
  | .Absolute x y => inferInstanceAs (Decidable (x.nonneg ∧ y.nonneg))
  | .Relative m c => inferInstanceAs (Decidable (m.nonneg ∧ c.nonneg))

def Padding.nonneg (p : Padding) : Prop :=
  0 ≤ p.left ∧ 0 ≤ p.right ∧ 0 ≤ p.top ∧ 0 ≤ p.bottom

instance (p : Padding) : Decidable p.nonneg :=
  inferInstanceAs (Decidable (0 ≤ p.left ∧ 0 ≤ p.right ∧ 0 ≤ p.top ∧ 0 ≤ p.bottom))

def Constraint.nonneg (c : Constraint) : Prop :=
  c.fill.nonneg ∧ c.content.padding.nonneg

instance (c : Constraint) : Decidable c.nonneg :=
  inferInstanceAs (Decidable (c.fill.nonneg ∧ c.content.padding.nonneg))

/-- Every constraint stored in the tree has non-negative `Exact` values and
non-negative padding. -/
def KTree.allNonneg (t : KTree Constraint) : Prop :=
  ∀ p ∈ t.nodes, p.2.value.nonneg

instance (t : KTree Constraint) : Decidable t.allNonneg :=
  inferInstanceAs (Decidable (∀ p ∈ t.nodes, p.2.value.nonneg))

/-- Every frame stored in the tree has non-negative lengths on both axes. -/
def KTree.framesNonneg (t : KTree Frame) : Prop :=
  ∀ p ∈ t.nodes, 0 ≤ p.2.value.length_x ∧ 0 ≤ p.2.value.length_y

instance (t : KTree Frame) : Decidable t.framesNonneg :=
  inferInstanceAs
    (Decidable (∀ p ∈ t.nodes, 0 ≤ p.2.value.length_x ∧ 0 ≤ p.2.value.length_y))

/-- Coherence of a solver state: when the state is clean, every stored
constraint key is correlated to a frame key that is present in the frame
tree.  Every state reachable through the facade satisfies this, since the
only transitions into a clean state are `clear`, a trivial solve on an
empty tree, and a completed solve, which correlates every key it lays out. -/
def Solver.coherentB (s : Solver) : Bool :=
  s.is_dirty ||
    s.constraint_tree.nodes.all (fun p =>
      match assocLookup s.key_map p.1 with
      | some fk => (s.frame_tree.lookupNode fk).isSome
      | none => false)

mutual

/-- The keys visited by `solve_child_keys` below a child-key list: the keys
themselves and, recursively, the keys below each of them, gathered with the
same fuel discipline as `solve_child_keys` so that the two walks can be
related by a single induction on fuel. -/
def visitedHead (t : KTree Constraint) : ℕ → List ℕ → Option (List ℕ)
  | 0, _ => none
  | f + 1, keys => visitedLoop t f keys

/-- Loop companion of `visitedHead`, mirroring the third pass of
`solve_child_keys`. -/
def visitedLoop (t : KTree Constraint) : ℕ → List ℕ → Option (List ℕ)
  | 0, _ => none
  | _ + 1, [] => some []
  | f + 1, k :: ks => do
      let nd ← t.lookupNode k
      let sub ← visitedHead t f nd.childKeys
      let rest ← visitedLoop t f ks
      pure (k :: (sub ++ rest))

end

/-! ### Concrete fixtures

Small constraint trees, all built through the facade mutation surface, used
as failing inputs and witnesses below. -/

/-- A root with both fills `Scale(1)` and horizontal flow. -/
def cRootH : Constraint :=
  ⟨.Relative (.Scale 1) (.Scale 1), ⟨.Horizontal, defaultPadding, .Start, .Start⟩⟩

/-- A leaf with `Exact` fills on both axes and horizontal flow. -/
def cExactH (vx vy : ℚ) : Constraint :=
  ⟨.Absolute (.Exact vx) (.Exact vy), ⟨.Horizontal, defaultPadding, .Start, .Start⟩⟩

/-- A node with `Minimize` on the x axis and horizontal flow. -/
def cMinimizeH : Constraint :=
  ⟨.Absolute .Minimize (.Exact 1), ⟨.Horizontal, defaultPadding, .Start, .Start⟩⟩

/-- Root (key 0) with two `Exact` children (keys 1 and 2). -/
def sC1 : Solver :=
  (((Solver.emptySolver.insert_root cRootH).2.insert (cExactH 3 1) 0).2.insert
    (cExactH 4 1) 0).2

/-- A single root holding `Constraint::default()`, whose content direction
is `Vertical`. -/
def sC2 : Solver := (Solver.emptySolver.insert_root defaultConstraint).2

/-- Root (key 0), `Minimize` child (key 1), `Minimize` grandchild (key 2). -/
def sC3 : Solver :=
  (((Solver.emptySolver.insert_root cRootH).2.insert cMinimizeH 0).2.insert
    cMinimizeH 1).2

/-- Root (key 0), `Minimize` child (key 1), `Exact` grandchild (key 2). -/
def sC4 : Solver :=
  (((Solver.emptySolver.insert_root cRootH).2.insert cMinimizeH 0).2.insert
    (cExactH 3 1) 1).2

/-- Root (key 0) with one child (key 1) whose `Exact` fills are negative. -/
def sC8 : Solver :=
  ((Solver.emptySolver.insert_root cRootH).2.insert (cExactH (-5) (-3)) 0).2

/-- Root (key 0) with one `Exact` child (key 1). -/
def sC10 : Solver :=
  ((Solver.emptySolver.insert_root cRootH).2.insert (cExactH 2 2) 0).2

/-- The state of `sC10` after a solve, removal of the child and a second
solve: the child key 1 is gone from the constraint tree, yet its
correlation entry survives in the key map. -/
def sC10' : Option Solver :=
  ((Solver.solve sC10 10 10 50).map (fun s => (s.remove 1 none).2)).bind
    (fun s => Solver.solve s 10 10 50)

/-- A coherent clean solver state: one root constraint, one root frame,
correlated by the key map. -/
def sC6 : Solver :=
  ⟨⟨some 0, [(0, ⟨cRootH, []⟩)], 1⟩,
    ⟨some 0, [(0, ⟨⟨0, 10, 0, 10⟩, []⟩)], 1⟩,
    [(0, 0)], false⟩

/-! ### Helper lemmas -/

theorem assocLookup_mem {β : Type} {m : List (ℕ × β)} {k : ℕ} {v : β}
    (h : assocLookup m k = some v) : (k, v) ∈ m := by
  induction m with
  | nil => simp [assocLookup] at h
  | cons p rest ih =>
      obtain ⟨a, b⟩ := p
      rw [assocLookup] at h
      by_cases hp : a = k
      · subst hp
        rw [if_pos rfl] at h
        cases h
        exact List.mem_cons_self _ _
      · rw [if_neg hp] at h
        exact List.mem_cons_of_mem _ (ih h)

theorem assocLookup_append {β : Type} (m n : List (ℕ × β)) (k : ℕ) :
    assocLookup (m ++ n) k =
      match assocLookup m k with
      | some v => some v
      | none => assocLookup n k := by
  induction m with
  | nil => simp [assocLookup]
  | cons p rest ih =>
      by_cases hp : p.1 = k <;> simp [assocLookup, hp, ih]

theorem assocLookup_map_replace {β : Type} (m : List (ℕ × β)) (k : ℕ) (v : β)
    (k' : ℕ) :
    assocLookup (m.map (fun p => if p.1 = k then (k, v) else p)) k' =
      if k' = k then (assocLookup m k).map (fun _ => v) else assocLookup m k' := by
  induction m with
  | nil => by_cases h : k' = k <;> simp [assocLookup, h]
  | cons p rest ih =>
      by_cases hp : p.1 = k
      · by_cases hk : k' = k
        · simp [assocLookup, hp, hk, ih]
        · simp [assocLookup, hp, hk, ih, Ne.symm hk]
      · by_cases hp' : p.1 = k'
        · have hk : ¬ k' = k := fun h => hp (h ▸ hp')
          simp [assocLookup, hp, hp', hk]
        · simp [assocLookup, hp, hp', ih]

theorem assocLookup_assocInsert {β : Type} (m : List (ℕ × β)) (k : ℕ) (v : β)
    (k' : ℕ) :
    assocLookup (assocInsert m k v) k' =
      if k' = k then some v else assocLookup m k' := by
  unfold assocInsert
  by_cases hs : (assocLookup m k).isSome
  · rw [if_pos hs, assocLookup_map_replace]
    by_cases hk : k' = k
    · obtain ⟨u, hu⟩ := Option.isSome_iff_exists.mp hs
      simp [hk, hu]
    · simp [hk]
  · rw [if_neg hs, assocLookup_append]
    have hnone : assocLookup m k = none := Option.not_isSome_iff_eq_none.mp hs
    by_cases hk : k' = k
    · subst hk
      simp [hnone, assocLookup]
    · cases h' : assocLookup m k' <;> simp [assocLookup, Ne.symm hk, hk]

/-- Saturation of one axis of the content rectangle: with non-negative data
and padding exceeding the total length, the content length collapses to
zero and the content start stays within the outer length. -/
theorem contentAxisSaturation (total pstart pend : ℚ) (h0 : 0 ≤ total)
    (h1 : 0 ≤ pstart) (h2 : 0 ≤ pend) (h3 : total < pstart + pend) :
    max (max (total - pend) 0 - min pstart total) 0 = 0 ∧
      0 ≤ min pstart total ∧ min pstart total ≤ total := by
  refine ⟨?_, le_min h1 h0, min_le_right _ _⟩
  have hle : max (total - pend) 0 ≤ min pstart total :=
    le_min (max_le (by linarith) h1) (max_le (by linarith) h0)
  exact max_eq_right (sub_nonpos.mpr hle)

/-! ### Claim C9 -/

/-- C9: the padding-to-content-rectangle computation satisfies, on each axis
independently and for every total length and padding pair, content start
`min(start, total)`, content end `max(total - end, 0)` and content length
`max(content end - content start, 0)`; the length is never negative, and
with non-negative data, padding exceeding the available length collapses
the content region to zero length with the start clamped inside the outer
length. -/
theorem c9_generate_content_frame_correct (p : Padding) (lx ly : ℚ) :
    (generate_content_frame p lx ly).offset_x = min p.left lx ∧
    (generate_content_frame p lx ly).length_x =
      max (max (lx - p.right) 0 - min p.left lx) 0 ∧
    (generate_content_frame p lx ly).offset_y = min p.top ly ∧
    (generate_content_frame p lx ly).length_y =
      max (max (ly - p.bottom) 0 - min p.top ly) 0 ∧
    0 ≤ (generate_content_frame p lx ly).length_x ∧
    0 ≤ (generate_content_frame p lx ly).length_y ∧
    (0 ≤ lx → 0 ≤ p.left → 0 ≤ p.right → lx < p.left + p.right →
      (generate_content_frame p lx ly).length_x = 0 ∧
      0 ≤ (generate_content_frame p lx ly).offset_x ∧
      (generate_content_frame p lx ly).offset_x ≤ lx) ∧
    (0 ≤ ly → 0 ≤ p.top → 0 ≤ p.bottom → ly < p.top + p.bottom →
      (generate_content_frame p lx ly).length_y = 0 ∧
      0 ≤ (generate_content_frame p lx ly).offset_y ∧
      (generate_content_frame p lx ly).offset_y ≤ ly) := by
  refine ⟨rfl, rfl, rfl, rfl, le_max_right _ _, le_max_right _ _, ?_, ?_⟩
  · intro h0 h1 h2 h3
    exact contentAxisSaturation lx p.left p.right h0 h1 h2 h3
  · intro h0 h1 h2 h3
    exact contentAxisSaturation ly p.top p.bottom h0 h1 h2 h3

/-- Witness for C9 at a concrete saturating input. -/
theorem c9_witness :
    (generate_content_frame ⟨6, 6, 6, 6⟩ 10 10).length_x = 0 ∧
    0 ≤ (generate_content_frame ⟨6, 6, 6, 6⟩ 10 10).offset_x ∧
    (generate_content_frame ⟨6, 6, 6, 6⟩ 10 10).offset_x ≤ 10 :=
  (c9_generate_content_frame_correct ⟨6, 6, 6, 6⟩ 10 10).2.2.2.2.2.2.1
    (by norm_num) (by norm_num) (by norm_num) (by norm_num)

/-! ### Claim C1 -/

/-- C1: the claim fails on the code.  In `sC1` the root has two `Exact`
children of main lengths 3 and 4, zero accumulated `Scale` weight and
`align_main = Start`; the claim requires the second child to start at main
offset 3 (contiguous packing), but the source computes a single `offset_x`
before the placement loop and never advances it, so both children are
placed at main offset 0. -/
theorem c1_children_share_one_main_offset :
    (Solver.solve sC1 20 10 50).bind (fun s => s.get_frame 1) =
      some ⟨0, 3, 0, 1⟩ ∧
    (Solver.solve sC1 20 10 50).bind (fun s => s.get_frame 2) =
      some ⟨0, 4, 0, 1⟩ := by
  with_unfolding_all decide

/-! ### Claim C2 -/

/-- C2: the claim fails on the code.  `sC2` holds a single root carrying
`Constraint::default()` — accepted by `insert_root` — whose content
direction is `Vertical`; `solve_child_keys` hits the `todo!()` of its
`Vertical` branch (modelled as `none`) for every fuel, so `solve` panics
instead of laying the node out. -/
theorem c2_vertical_parent_panics (fuel : ℕ) :
    Solver.solve sC2 10 10 fuel = none := by
  cases fuel <;> rfl

/-! ### Claims C3 and C4

Both rest on the same source defect: inside `find_minimizing_length`, the
`Minimize` branches recurse on `constraint_keys` — the sibling set being
iterated — rather than on the child keys of the node under scrutiny, so any
sibling set containing a node whose normalized x fill is `Minimize` makes
the resolver call itself on the very same set, forever (or hit the
`Vertical` `todo!`). -/

theorem fml_vertical (t : KTree Constraint) (f : ℕ) (keys : List ℕ) (mx my : ℚ) :
    find_minimizing_length t f keys .Vertical mx my = none := by
  cases f <;> rfl

/-- Any singleton sibling set whose node has a `Minimize` x fill sends
`find_minimizing_length` into unbounded self-recursion: no amount of fuel
produces a result. -/
theorem fml_cycle_aux (t : KTree Constraint) (k : ℕ) (nd : KNode Constraint)
    (hk : t.lookupNode k = some nd)
    (hx : nd.value.fill.to_absolute_fill_horizontal.x = .Minimize) (f : ℕ) :
    (∀ mx my, find_minimizing_length t f [k] .Horizontal mx my = none) ∧
      (∀ mx maxy my, fmlLoop t f [k] [k] mx maxy my = none) := by
  induction f with
  | zero => exact ⟨fun _ _ => rfl, fun _ _ _ => rfl⟩
  | succ f ih =>
      constructor
      · intro mx my
        simp only [find_minimizing_length, ih.2, Option.bind_eq_bind, Option.none_bind]
      · intro mx maxy my
        cases hd : nd.value.content.direction with
        | Horizontal =>
            simp only [fmlLoop, hk, hx, hd, ih.1, Option.bind_eq_bind,
              Option.some_bind, Option.none_bind]
        | Vertical =>
            simp only [fmlLoop, hk, hx, hd, fml_vertical, Option.bind_eq_bind,
              Option.some_bind, Option.none_bind]

theorem c3_loopA (f : ℕ) (cf : Frame) (pc : Content) (rem : ℚ) (total : ℕ) :
    scgLoopA sC3.constraint_tree f [1] cf pc rem total = none := by
  cases f with
  | zero => rfl
  | succ g =>
      have h2 := (fml_cycle_aux sC3.constraint_tree 2 ⟨cMinimizeH, []⟩ (by decide)
        (by decide) g).1
      have hk1 : sC3.constraint_tree.lookupNode 1 = some ⟨cMinimizeH, [2]⟩ := by decide
      simp only [scgLoopA, hk1, cMinimizeH, Fill.to_absolute_fill_horizontal,
        Fill.to_absolute_fill, h2, Option.bind_eq_bind, Option.some_bind,
        Option.none_bind]

theorem c3_sck (f : ℕ) (pfk : ℕ) (cf : Frame) (ft : KTree Frame) (km : List (ℕ × ℕ)) :
    solve_child_keys sC3.constraint_tree f [1] pfk cf cRootH.content ft km = none := by
  cases f with
  | zero => rfl
  | succ g =>
      simp only [solve_child_keys, cRootH, c3_loopA, Option.bind_eq_bind,
        Option.none_bind]

theorem c3_solveTree (f : ℕ) (ft : KTree Frame) (km : List (ℕ × ℕ)) (lx ly : ℚ) :
    solveTree sC3.constraint_tree f ft km lx ly = none := by
  have hstep : solveTree sC3.constraint_tree f ft km lx ly =
      solve_child_keys sC3.constraint_tree f [1] ft.nextKey
        (generate_content_frame defaultPadding lx ly) cRootH.content
        (KTree.insert_root_with_capacity ft ⟨0, lx, 0, ly⟩ 1).2
        (assocInsert km 0 ft.nextKey) := by with_unfolding_all rfl
  rw [hstep]
  exact c3_sck f ft.nextKey _ _ _

/-- C3: the claim fails on the code.  `sC3` is a facade-built tree — root,
`Minimize` child, `Minimize` grandchild, all horizontal — on which `solve`
never returns: the embedded solver yields `none` for every fuel, because
the source resolver recurses on the sibling set containing the grandchild
itself, an unbounded recursion (a stack overflow in the Rust source). -/
theorem c3_solve_never_returns (fuel : ℕ) : Solver.solve sC3 10 10 fuel = none := by
  have hD : sC3.is_dirty = true := by decide
  have hE : sC3.constraint_tree.isEmptyTree = false := by decide
  simp only [Solver.solve, hD, hE, c3_solveTree]

/-- C4: the claim fails on the code.  In `sC4` the sibling set `[1]` holds a
`Minimize` node whose only child (key 2) is `Exact(3)`; the claim (and the
spec) requires the resolver to recurse into the children of node 1 and
return main length 3, as the spec-modelled resolver
`find_minimizing_length_spec` does, but the source resolver recurses on the
sibling set `[1]` itself and never returns, for every fuel. -/
theorem c4_resolver_diverges_from_spec (fuel : ℕ) :
    find_minimizing_length sC4.constraint_tree fuel [1] .Horizontal 100 100 = none ∧
    find_minimizing_length_spec sC4.constraint_tree 10 [1] .Horizontal 100 100 =
      some (3, 1) := by
  constructor
  · exact (fml_cycle_aux sC4.constraint_tree 1 ⟨cMinimizeH, [2]⟩ (by decide)
      (by decide) fuel).1 100 100
  · with_unfolding_all decide

/-! ### Claim C5 -/

/-- C5: `insert_root_with_capacity` (and `insert_root`, which delegates to it
with capacity 0) rejects exactly when the fill does not normalize, under the
ambient `Vertical` direction, to `Scale` on both absolute axes; on rejection
the whole state is unchanged, and on success the node is inserted as the
root and the dirty flag is set. -/
theorem c5_insert_root_scale_scale (s : Solver) (c : Constraint) (cap : ℕ) :
    ((s.insert_root_with_capacity c cap).1 = none ↔
      ¬ rootFillNormalizesToScales c.fill) ∧
    ((s.insert_root_with_capacity c cap).1 = none →
      (s.insert_root_with_capacity c cap).2 = s) ∧
    (∀ k, (s.insert_root_with_capacity c cap).1 = some k →
      (s.insert_root_with_capacity c cap).2.is_dirty = true ∧
      (s.insert_root_with_capacity c cap).2.constraint_tree.rootKey = some k ∧
      (s.insert_root_with_capacity c cap).2.constraint_tree.lookupNode k =
        some ⟨c, []⟩) ∧
    s.insert_root c = s.insert_root_with_capacity c 0 := by
  refine ⟨?_, ?_, ?_, rfl⟩
  · obtain ⟨fill, content⟩ := c
    cases fill with
    | Absolute x y =>
        cases x <;> cases y <;>
          simp [Solver.insert_root_with_capacity, rootFillNormalizesToScales,
            Fill.to_absolute_fill]
    | Relative m cr =>
        cases m <;> cases cr <;>
          simp [Solver.insert_root_with_capacity, rootFillNormalizesToScales,
            Fill.to_absolute_fill]
  · obtain ⟨fill, content⟩ := c
    cases fill with
    | Absolute x y =>
        cases x <;> cases y <;>
          simp [Solver.insert_root_with_capacity]
    | Relative m cr =>
        cases m <;> cases cr <;>
          simp [Solver.insert_root_with_capacity]
  · intro k hk
    obtain ⟨fill, content⟩ := c
    cases fill with
    | Absolute x y =>
        cases x <;> cases y <;>
          simp_all [Solver.insert_root_with_capacity, KTree.insert_root_with_capacity,
            KTree.lookupNode, assocLookup]
    | Relative m cr =>
        cases m <;> cases cr <;>
          simp_all [Solver.insert_root_with_capacity, KTree.insert_root_with_capacity,
            KTree.lookupNode, assocLookup]


/-! ### Claim C6 -/

/-- C6: under the coherence invariant that every reachable clean state
satisfies, `get_frame` returns `none` exactly when the key is absent or the
state is dirty, and any frame it does return is the one stored in the frame
tree under the correlated frame key — the result of the most recent solve —
so no stale frame is observable. -/
theorem c6_get_frame_unavailable_iff (s : Solver) (k : ℕ) (h : s.coherentB = true) :
    (s.get_frame k = none ↔ (s.contains k = false ∨ s.is_dirty = true)) ∧
    (∀ fr, s.get_frame k = some fr →
      s.is_dirty = false ∧ s.contains k = true ∧
      ∃ fk nd, assocLookup s.key_map k = some fk ∧
        s.frame_tree.lookupNode fk = some nd ∧ nd.value = fr) := by
  unfold Solver.coherentB at h
  cases hc : s.constraint_tree.containsKey k <;> cases hd : s.is_dirty
  · simp [Solver.get_frame, Solver.contains, hc, hd]
  · simp [Solver.get_frame, Solver.contains, hc, hd]
  · -- contains true, dirty false: coherence supplies the frame
    rw [hd] at h
    simp only [Bool.false_or] at h
    have hnd : ∃ nd, s.constraint_tree.lookupNode k = some nd := by
      have := hc
      unfold KTree.containsKey at this
      exact Option.isSome_iff_exists.mp this
    obtain ⟨nd, hnd⟩ := hnd
    have hmem : (k, nd) ∈ s.constraint_tree.nodes := assocLookup_mem hnd
    have hall := List.all_eq_true.mp h (k, nd) hmem
    cases hfk : assocLookup s.key_map k with
    | none => rw [hfk] at hall; simp at hall
    | some fk =>
        rw [hfk] at hall
        have hfnd : ∃ fnd, s.frame_tree.lookupNode fk = some fnd := by
          simp only [] at hall
          exact Option.isSome_iff_exists.mp hall
        obtain ⟨fnd, hfnd⟩ := hfnd
        have hgf : s.get_frame k = some fnd.value := by
          simp [Solver.get_frame, hc, hd, hfk, hfnd]
        constructor
        · rw [hgf]
          simp [Solver.contains, hc, hd]
        · intro fr hfr
          rw [hgf] at hfr
          cases hfr
          exact ⟨rfl, by simp [Solver.contains, hc], fk, fnd, rfl, hfnd, rfl⟩
  · simp [Solver.get_frame, Solver.contains, hc, hd]


/-! ### Claim C7 -/

theorem c7h_insert_root (s : Solver) (c : Constraint) (cap : ℕ) :
    ((s.insert_root_with_capacity c cap).1.isSome = true →
      (s.insert_root_with_capacity c cap).2.is_dirty = true) ∧
    ((s.insert_root_with_capacity c cap).1.isSome = false →
      (s.insert_root_with_capacity c cap).2 = s) := by
  unfold Solver.insert_root_with_capacity
  obtain ⟨fill, content⟩ := c
  cases fill with
  | Absolute x y => cases x <;> cases y <;> simp
  | Relative m cr => cases m <;> cases cr <;> simp

theorem c7h_insert (s : Solver) (c : Constraint) (pk cap : ℕ) :
    ((s.insert_with_capacity c pk cap).1.isSome = true →
      (s.insert_with_capacity c pk cap).2.is_dirty = true) ∧
    ((s.insert_with_capacity c pk cap).1.isSome = false →
      (s.insert_with_capacity c pk cap).2 = s) := by
  unfold Solver.insert_with_capacity KTree.insert_with_capacity
  cases hl : s.constraint_tree.lookupNode pk <;> simp [hl]

theorem c7h_remove (s : Solver) (k : ℕ) (sh : Option ℕ) :
    ((s.remove k sh).1.isSome = true → (s.remove k sh).2.is_dirty = true) ∧
    ((s.remove k sh).1.isSome = false → (s.remove k sh).2 = s) := by
  unfold Solver.remove KTree.removeKey
  cases hl : s.constraint_tree.lookupNode k <;> simp [hl]

theorem c7h_reorder (s : Solver) (k : ℕ) (f : List ℕ → List ℕ) :
    ((s.reorder_children k f).1 = true → (s.reorder_children k f).2.is_dirty = true) ∧
    ((s.reorder_children k f).1 = false → (s.reorder_children k f).2 = s) := by
  unfold Solver.reorder_children KTree.reorder_children
  cases hl : s.constraint_tree.lookupNode k
  · simp [hl]
  · simp only [hl]
    split <;> simp

theorem c7h_rebase (s : Solver) (k pk : ℕ) :
    ((s.rebase k pk).1 = true → (s.rebase k pk).2.is_dirty = true) ∧
    ((s.rebase k pk).1 = false → (s.rebase k pk).2 = s) := by
  unfold Solver.rebase KTree.rebase
  cases hl : s.constraint_tree.lookupNode k <;>
    cases hl2 : s.constraint_tree.lookupNode pk
  · simp [hl, hl2]
  · simp [hl, hl2]
  · simp [hl, hl2]
  · simp only [hl, hl2]
    split <;> simp

theorem c7h_set (s : Solver) (k : ℕ) (nc : Constraint) :
    ((s.set k nc).1.isSome = true → (s.set k nc).2.is_dirty = true) ∧
    ((s.set k nc).1.isSome = false → (s.set k nc).2 = s) := by
  unfold Solver.set KTree.setValue
  cases hl : s.constraint_tree.lookupNode k <;> simp [hl]

theorem c7h_solve_clears (s : Solver) (lx ly : ℚ) (fuel : ℕ) (s' : Solver)
    (h : Solver.solve s lx ly fuel = some s') :
    s'.is_dirty = false ∨ (s.is_dirty = false ∧ s' = s) := by
  unfold Solver.solve at h
  cases hd : s.is_dirty <;> rw [hd] at h
  · cases h
    right
    exact ⟨rfl, rfl⟩
  · cases he : s.constraint_tree.isEmptyTree <;> rw [he] at h
    · dsimp only at h
      cases hst : solveTree s.constraint_tree fuel s.frame_tree s.key_map
        (max lx 0) (max ly 0) with
      | none => rw [hst] at h; cases h
      | some p => rw [hst] at h; cases p; cases h; left; rfl
    · cases h
      left
      rfl


/-- C7: every facade mutation sets the dirty flag exactly when it reports
success and leaves the whole state unchanged on failure or absence; a solve
that returns either cleared the flag or was a no-op on an already clean
state — so among the facade operations only a successful solve clears the
flag. -/
theorem c7_mutations_dirty_discipline (s : Solver) (c nc : Constraint)
    (cap pk k k2 : ℕ) (sh : Option ℕ) (f : List ℕ → List ℕ) (lx ly : ℚ)
    (fuel : ℕ) :
    ((s.insert_root_with_capacity c cap).1.isSome = true →
      (s.insert_root_with_capacity c cap).2.is_dirty = true) ∧
    ((s.insert_root_with_capacity c cap).1.isSome = false →
      (s.insert_root_with_capacity c cap).2 = s) ∧
    ((s.insert_with_capacity c pk cap).1.isSome = true →
      (s.insert_with_capacity c pk cap).2.is_dirty = true) ∧
    ((s.insert_with_capacity c pk cap).1.isSome = false →
      (s.insert_with_capacity c pk cap).2 = s) ∧
    ((s.remove k sh).1.isSome = true → (s.remove k sh).2.is_dirty = true) ∧
    ((s.remove k sh).1.isSome = false → (s.remove k sh).2 = s) ∧
    ((s.reorder_children k f).1 = true → (s.reorder_children k f).2.is_dirty = true) ∧
    ((s.reorder_children k f).1 = false → (s.reorder_children k f).2 = s) ∧
    ((s.rebase k k2).1 = true → (s.rebase k k2).2.is_dirty = true) ∧
    ((s.rebase k k2).1 = false → (s.rebase k k2).2 = s) ∧
    ((s.set k nc).1.isSome = true → (s.set k nc).2.is_dirty = true) ∧
    ((s.set k nc).1.isSome = false → (s.set k nc).2 = s) ∧
    (∀ s', Solver.solve s lx ly fuel = some s' →
      s'.is_dirty = false ∨ (s.is_dirty = false ∧ s' = s)) :=
  ⟨(c7h_insert_root s c cap).1, (c7h_insert_root s c cap).2,
    (c7h_insert s c pk cap).1, (c7h_insert s c pk cap).2,
    (c7h_remove s k sh).1, (c7h_remove s k sh).2,
    (c7h_reorder s k f).1, (c7h_reorder s k f).2,
    (c7h_rebase s k k2).1, (c7h_rebase s k k2).2,
    (c7h_set s k nc).1, (c7h_set s k nc).2,
    fun s' h => c7h_solve_clears s lx ly fuel s' h⟩

/-- Witness for C7: replacing the root value of `sC10` succeeds and sets the
dirty flag. -/
theorem c7_witness : (Solver.set sC10 0 cRootH).2.is_dirty = true :=
  (c7_mutations_dirty_discipline sC10 cRootH cRootH 0 0 0 0 none id 0 0
    0).2.2.2.2.2.2.2.2.2.2.1 (by decide)

/-- Witness for C5: the root-rejection test of the spec — a fill of
`Absolute(Exact 10, Scale 1)` is rejected. -/
theorem c5_witness :
    (Solver.emptySolver.insert_root_with_capacity
      ⟨.Absolute (.Exact 10) (.Scale 1), defaultContent⟩ 0).1 = none :=
  (c5_insert_root_scale_scale Solver.emptySolver
    ⟨.Absolute (.Exact 10) (.Scale 1), defaultContent⟩ 0).1.mpr (by decide)

/-- Witness for C6 at the coherent clean state `sC6`. -/
theorem c6_witness :
    Solver.get_frame sC6 0 = none ↔
      (Solver.contains sC6 0 = false ∨ sC6.is_dirty = true) :=
  (c6_get_frame_unavailable_iff sC6 0 (by decide)).1

/-! ### Claim C8: non-negativity of frames -/

/-- The content rectangle always has non-negative lengths. -/
theorem gcf_nonneg (p : Padding) (lx ly : ℚ) :
    0 ≤ (generate_content_frame p lx ly).length_x ∧
      0 ≤ (generate_content_frame p lx ly).length_y :=
  ⟨le_max_right _ _, le_max_right _ _⟩

/-- Normalization preserves non-negativity of the fill components. -/
theorem absfill_nonneg {fl : Fill} (h : fl.nonneg) :
    fl.to_absolute_fill_horizontal.x.nonneg ∧
      fl.to_absolute_fill_horizontal.y.nonneg := by
  cases fl <;> exact ⟨h.1, h.2⟩

/-- A successful lookup in an all-non-negative tree yields a non-negative
constraint. -/
theorem allNonneg_lookup {t : KTree Constraint} (hT : t.allNonneg) {k : ℕ}
    {nd : KNode Constraint} (hk : t.lookupNode k = some nd) :
    nd.value.nonneg :=
  hT (k, nd) (assocLookup_mem hk)

/-- On a tree with non-negative `Exact` values and paddings and with
non-negative budgets, the Minimize Resolver returns a main length inside
the budget and non-negative lengths on both axes. -/
theorem fm_nonneg_master (t : KTree Constraint) (hT : t.allNonneg) (f : ℕ) :
    (∀ keys dir mx my a b, 0 ≤ mx → 0 ≤ my →
      find_minimizing_length t f keys dir mx my = some (a, b) →
      0 ≤ a ∧ a ≤ mx ∧ 0 ≤ b) ∧
    (∀ allK todo rem maxy maxLy r m, 0 ≤ rem → 0 ≤ maxy → 0 ≤ maxLy →
      fmlLoop t f allK todo rem maxy maxLy = some (r, m) →
      0 ≤ r ∧ r ≤ rem ∧ 0 ≤ m) := by
  induction f with
  | zero =>
      constructor
      · intro keys dir mx my a b _ _ h
        simp [find_minimizing_length] at h
      · intro allK todo rem maxy maxLy r m _ _ _ h
        simp [fmlLoop] at h
  | succ f ih =>
      constructor
      · intro keys dir mx my a b hmx hmy h
        cases dir with
        | Vertical => rw [fml_vertical] at h; cases h
        | Horizontal =>
            simp only [find_minimizing_length, Option.bind_eq_bind,
              Option.bind_eq_some, Option.pure_def, Option.some.injEq,
              Prod.mk.injEq] at h
            obtain ⟨⟨rr, mm⟩, hloop, ha, hb⟩ := h
            obtain ⟨hr0, hrle, hm0⟩ :=
              ih.2 keys keys mx 0 my rr mm hmx le_rfl hmy hloop
            subst ha
            subst hb
            exact ⟨sub_nonneg.mpr hrle, sub_le_self _ hr0, le_min hm0 hmy⟩
      · intro allK todo rem maxy maxLy r m hrem hmaxy hmaxLy h
        cases todo with
        | nil =>
            simp only [fmlLoop, Option.some.injEq, Prod.mk.injEq] at h
            obtain ⟨h1, h2⟩ := h
            subst h1
            subst h2
            exact ⟨hrem, le_rfl, hmaxy⟩
        | cons k ks =>
            simp only [fmlLoop, Option.bind_eq_bind, Option.bind_eq_some,
              Option.pure_def, Option.some.injEq] at h
            obtain ⟨nd, hnd, ⟨lx0, cache⟩, hlx0, ly, hly, hloop⟩ := h
            have hnn := allNonneg_lookup hT hnd
            have hfill := absfill_nonneg hnn.1
            have hpad := hnn.2
            have hlx0nn : 0 ≤ lx0 ∧ (∀ sy, cache = some sy → 0 ≤ sy) := by
              cases hx : nd.value.fill.to_absolute_fill_horizontal.x with
              | Exact ex =>
                  rw [hx] at hlx0
                  simp only [Option.some.injEq, Prod.mk.injEq] at hlx0
                  obtain ⟨h1, h2⟩ := hlx0
                  subst h1
                  subst h2
                  have hex : (0 : ℚ) ≤ ex := by
                    have hfx := hfill.1
                    rw [hx] at hfx
                    exact hfx
                  refine ⟨add_nonneg (add_nonneg hex hpad.1) hpad.2.1, ?_⟩
                  intro sy hsy
                  exact Option.noConfusion hsy
              | Scale w =>
                  rw [hx] at hlx0
                  simp only [Option.some.injEq, Prod.mk.injEq] at hlx0
                  obtain ⟨h1, h2⟩ := hlx0
                  subst h1
                  subst h2
                  refine ⟨add_nonneg hpad.1 hpad.2.1, ?_⟩
                  intro sy hsy
                  exact Option.noConfusion hsy
              | Minimize =>
                  rw [hx] at hlx0
                  simp only [Option.bind_eq_bind, Option.bind_eq_some,
                    Option.pure_def, Option.some.injEq, Prod.mk.injEq] at hlx0
                  obtain ⟨⟨sx, sy⟩, hsub, h1, h2⟩ := hlx0
                  obtain ⟨hsx0, _, hsy0⟩ :=
                    ih.1 allK nd.value.content.direction rem maxLy sx sy hrem
                      hmaxLy hsub
                  subst h1
                  subst h2
                  refine ⟨add_nonneg (add_nonneg hsx0 hpad.1) hpad.2.1, ?_⟩
                  intro sy' hsy'
                  cases hsy'
                  exact hsy0
            have hlynn : 0 ≤ ly := by
              cases hy : nd.value.fill.to_absolute_fill_horizontal.y with
              | Exact ey =>
                  rw [hy] at hly
                  simp only [Option.some.injEq] at hly
                  subst hly
                  have hey : (0 : ℚ) ≤ ey := by
                    have hfy := hfill.2
                    rw [hy] at hfy
                    exact hfy
                  exact add_nonneg (add_nonneg hey hpad.2.2.1) hpad.2.2.2
              | Scale w =>
                  rw [hy] at hly
                  simp only [Option.some.injEq] at hly
                  subst hly
                  exact add_nonneg hpad.2.2.1 hpad.2.2.2
              | Minimize =>
                  rw [hy] at hly
                  cases hc : cache with
                  | some sy =>
                      rw [hc] at hly
                      simp only [Option.some.injEq] at hly
                      subst hly
                      exact hlx0nn.2 _ hc
                  | none =>
                      rw [hc] at hly
                      simp only [Option.bind_eq_bind, Option.bind_eq_some,
                        Option.pure_def, Option.some.injEq] at hly
                      obtain ⟨⟨sx2, sy2⟩, hsub2, h1⟩ := hly
                      obtain ⟨_, _, hsy2⟩ :=
                        ih.1 allK nd.value.content.direction rem maxLy sx2 sy2
                          hrem hmaxLy hsub2
                      subst h1
                      exact hsy2
            have hmin0 : 0 ≤ min lx0 rem := le_min hlx0nn.1 hrem
            obtain ⟨h1, h2, h3⟩ :=
              ih.2 allK ks (rem - min lx0 rem) (max maxy ly) maxLy r m
                (sub_nonneg.mpr (min_le_right _ _))
                (le_trans hmaxy (le_max_left _ _)) hmaxLy hloop
            exact ⟨h1, le_trans h2 (sub_le_self _ hmin0), h3⟩

/-- Inserting a frame with non-negative lengths preserves non-negativity of
the whole frame tree. -/
theorem insert_framesNonneg {ft : KTree Frame} (hft : ft.framesNonneg)
    {v : Frame} (hv : 0 ≤ v.length_x ∧ 0 ≤ v.length_y) (pk cap : ℕ) :
    ((ft.insert_with_capacity v pk cap).2).framesNonneg := by
  unfold KTree.insert_with_capacity
  cases hl : ft.lookupNode pk with
  | none => exact hft
  | some pn =>
      intro p hp
      simp only [List.mem_append, List.mem_map, List.mem_singleton] at hp
      rcases hp with ⟨q, hq, hqp⟩ | hp
      · by_cases hq1 : q.1 = pk
        · rw [if_pos hq1] at hqp
          subst hqp
          exact hft (pk, pn) (assocLookup_mem hl)
        · rw [if_neg hq1] at hqp
          subst hqp
          exact hft q hq
      · subst hp
        exact hv

/-- The proportional-distribution pass keeps every assigned main length
non-negative when the remaining main length is non-negative. -/
theorem scgPhaseB_nonneg (entries : List PassEntry) (cf : Frame) (pc : Content)
    (rem : ℚ) (total : ℕ) (hrem : 0 ≤ rem)
    (he : ∀ e ∈ entries, (∀ v, e.length_x = some v → 0 ≤ v) ∧ 0 ≤ e.length_y) :
    ∀ e ∈ (scgPhaseB entries cf pc rem total).2,
      (∀ v, e.length_x = some v → 0 ≤ v) ∧ 0 ≤ e.length_y := by
  intro e' he'
  unfold scgPhaseB at he'
  cases total with
  | zero => exact he e' he'
  | succ n =>
      simp only [List.mem_map] at he'
      obtain ⟨e, hmem, hmap⟩ := he'
      cases hax : e.af.x with
      | Exact ex =>
          rw [hax] at hmap
          subst hmap
          exact he e hmem
      | Minimize =>
          rw [hax] at hmap
          subst hmap
          exact he e hmem
      | Scale w =>
          rw [hax] at hmap
          subst hmap
          refine ⟨?_, (he e hmem).2⟩
          intro v hv
          simp only [Option.some.injEq] at hv
          subst hv
          exact mul_nonneg
            (div_nonneg (Nat.cast_nonneg w) (Nat.cast_nonneg (n + 1))) hrem

/-- Joint invariant of the three passes of `solve_child_keys`: under an
all-non-negative constraint tree and a non-negative content rectangle,
every frame written into a non-negative frame tree keeps it non-negative. -/
theorem scg_nonneg_master (t : KTree Constraint) (hT : t.allNonneg) (f : ℕ) :
    (∀ todo cf pc rem total entries rem2 total2, 0 ≤ rem → 0 ≤ cf.length_y →
      scgLoopA t f todo cf pc rem total = some (entries, rem2, total2) →
      0 ≤ rem2 ∧
        ∀ e ∈ entries, (∀ v, e.length_x = some v → 0 ≤ v) ∧ 0 ≤ e.length_y) ∧
    (∀ todo entries ox pfk ft km ft2 km2, ft.framesNonneg →
      (∀ e ∈ entries, (∀ v, e.length_x = some v → 0 ≤ v) ∧ 0 ≤ e.length_y) →
      scgLoopC t f todo entries ox pfk ft km = some (ft2, km2) →
      ft2.framesNonneg) ∧
    (∀ keys pfk cf pc ft km ft2 km2, 0 ≤ cf.length_x → 0 ≤ cf.length_y →
      ft.framesNonneg →
      solve_child_keys t f keys pfk cf pc ft km = some (ft2, km2) →
      ft2.framesNonneg) := by
  induction f with
  | zero =>
      refine ⟨?_, ?_, ?_⟩
      · intro todo cf pc rem total entries rem2 total2 _ _ h
        simp [scgLoopA] at h
      · intro todo entries ox pfk ft km ft2 km2 _ _ h
        simp [scgLoopC] at h
      · intro keys pfk cf pc ft km ft2 km2 _ _ _ h
        simp [solve_child_keys] at h
  | succ f ih =>
      refine ⟨?_, ?_, ?_⟩
      · -- scgLoopA
        intro todo cf pc rem total entries rem2 total2 hrem hcy h
        cases todo with
        | nil =>
            simp only [scgLoopA, Option.some.injEq, Prod.mk.injEq] at h
            obtain ⟨h1, h2, h3⟩ := h
            subst h1
            subst h2
            exact ⟨hrem, by simp⟩
        | cons k ks =>
            simp only [scgLoopA, Option.bind_eq_bind, Option.bind_eq_some,
              Option.pure_def, Option.some.injEq] at h
            obtain ⟨nd, hnd, ⟨lxO, cache, rem1, total1⟩, hbr, ly, hly, ⟨rest, remF, totF⟩,
              hrec, hpure⟩ := h
            have hnn := allNonneg_lookup hT hnd
            have hfill := absfill_nonneg hnn.1
            have hpad := hnn.2
            have hbrfacts : (∀ v, lxO = some v → 0 ≤ v) ∧ 0 ≤ rem1 ∧
                (∀ sy, cache = some sy → 0 ≤ sy) := by
              cases hx : nd.value.fill.to_absolute_fill_horizontal.x with
              | Exact ex =>
                  rw [hx] at hbr
                  simp only [Option.some.injEq, Prod.mk.injEq] at hbr
                  obtain ⟨h1, h2, h3, h4⟩ := hbr
                  subst h1
                  subst h2
                  subst h3
                  have hex : (0 : ℚ) ≤ ex := by
                    have hfx := hfill.1
                    rw [hx] at hfx
                    exact hfx
                  refine ⟨?_, sub_nonneg.mpr (min_le_right _ _), ?_⟩
                  · intro v hv
                    simp only [Option.some.injEq] at hv
                    subst hv
                    exact le_min hex hrem
                  · intro sy hsy
                    exact Option.noConfusion hsy
              | Scale w =>
                  rw [hx] at hbr
                  simp only [Option.some.injEq, Prod.mk.injEq] at hbr
                  obtain ⟨h1, h2, h3, h4⟩ := hbr
                  subst h1
                  subst h2
                  subst h3
                  refine ⟨?_, hrem, ?_⟩
                  · intro v hv
                    exact Option.noConfusion hv
                  · intro sy hsy
                    exact Option.noConfusion hsy
              | Minimize =>
                  rw [hx] at hbr
                  simp only [Option.bind_eq_bind, Option.bind_eq_some,
                    Option.pure_def, Option.some.injEq, Prod.mk.injEq] at hbr
                  obtain ⟨⟨mx1, my1⟩, hsub, h1, h2, h3, h4⟩ := hbr
                  obtain ⟨hmx0, hmxle, hmy0⟩ :=
                    (fm_nonneg_master t hT f).1 nd.childKeys
                      nd.value.content.direction rem cf.length_y mx1 my1 hrem
                      hcy hsub
                  subst h1
                  subst h2
                  subst h3
                  refine ⟨?_, sub_nonneg.mpr hmxle, ?_⟩
                  · intro v hv
                    simp only [Option.some.injEq] at hv
                    subst hv
                    exact hmx0
                  · intro sy hsy
                    simp only [Option.some.injEq] at hsy
                    subst hsy
                    exact hmy0
            have hlynn : 0 ≤ ly := by
              cases hy : nd.value.fill.to_absolute_fill_horizontal.y with
              | Exact ey =>
                  rw [hy] at hly
                  simp only [Option.some.injEq] at hly
                  subst hly
                  exact le_min (by
                    have hfy := hfill.2
                    rw [hy] at hfy
                    exact hfy) hcy
              | Scale w =>
                  rw [hy] at hly
                  simp only [Option.some.injEq] at hly
                  subst hly
                  cases w with
                  | zero => simp
                  | succ n => simpa using hcy
              | Minimize =>
                  rw [hy] at hly
                  cases hc : cache with
                  | some sy =>
                      rw [hc] at hly
                      simp only [Option.some.injEq] at hly
                      subst hly
                      exact hbrfacts.2.2 _ hc
                  | none =>
                      rw [hc] at hly
                      simp only [Option.bind_eq_bind, Option.bind_eq_some,
                        Option.pure_def, Option.some.injEq] at hly
                      obtain ⟨⟨mx2, my2⟩, hsub2, h1⟩ := hly
                      obtain ⟨_, _, hmy2⟩ :=
                        (fm_nonneg_master t hT f).1 nd.childKeys
                          nd.value.content.direction rem1 cf.length_y mx2 my2
                          hbrfacts.2.1 hcy hsub2
                      subst h1
                      exact hmy2
            obtain ⟨hremF, hrest⟩ :=
              ih.1 ks cf pc rem1 total1 rest remF totF hbrfacts.2.1 hcy hrec
            simp only [Prod.mk.injEq] at hpure
            obtain ⟨h1, h2, h3⟩ := hpure
            subst h1
            subst h2
            constructor
            · exact hremF
            · intro e hme
              rcases List.mem_cons.mp hme with hme | hme
              · subst hme
                exact ⟨hbrfacts.1, hlynn⟩
              · exact hrest e hme
      · -- scgLoopC
        intro todo entries ox pfk ft km ft2 km2 hft he h
        cases todo with
        | nil =>
            simp only [scgLoopC, Option.some.injEq, Prod.mk.injEq] at h
            obtain ⟨h1, _⟩ := h
            subst h1
            exact hft
        | cons k ks =>
            cases entries with
            | nil =>
                simp only [scgLoopC, Option.some.injEq, Prod.mk.injEq] at h
                obtain ⟨h1, _⟩ := h
                subst h1
                exact hft
            | cons e es =>
                simp only [scgLoopC, Option.bind_eq_bind, Option.bind_eq_some,
                  Option.pure_def, Option.some.injEq] at h
                obtain ⟨nd, hnd, fk, hfk, ⟨ftM, kmM⟩, hsck, hloop⟩ := h
                have hednn := he e (List.mem_cons_self e es)
                have hframe : 0 ≤ (e.length_x.getD 0) ∧ 0 ≤ e.length_y := by
                  refine ⟨?_, hednn.2⟩
                  cases hlx : e.length_x with
                  | none => simp
                  | some v => simpa using hednn.1 v hlx
                have hft1 : ((ft.insert_with_capacity
                    ⟨ox, e.length_x.getD 0, e.offset_y, e.length_y⟩ pfk
                    nd.childKeys.length).2).framesNonneg :=
                  insert_framesNonneg hft hframe pfk nd.childKeys.length
                have hftM : ftM.framesNonneg := by
                  refine ih.2.2 nd.childKeys fk
                    (generate_content_frame nd.value.content.padding
                      (e.length_x.getD 0) e.length_y)
                    nd.value.content _ _ ftM kmM
                    (gcf_nonneg _ _ _).1 (gcf_nonneg _ _ _).2 hft1 hsck
                exact ih.2.1 ks es ox pfk ftM kmM ft2 km2 hftM
                  (fun e' he' => he e' (List.mem_cons_of_mem _ he')) hloop
      · -- solve_child_keys
        intro keys pfk cf pc ft km ft2 km2 hcx hcy hft h
        cases hd : pc.direction with
        | Vertical =>
            rw [solve_child_keys, hd] at h
            cases h
        | Horizontal =>
            rw [solve_child_keys, hd] at h
            simp only [Option.bind_eq_bind, Option.bind_eq_some,
              Option.pure_def, Option.some.injEq] at h
            obtain ⟨⟨entries, rem2, total2⟩, hA, hC⟩ := h
            obtain ⟨hrem2, hentries⟩ :=
              ih.1 keys cf pc cf.length_x 0 entries rem2 total2 hcx hcy hA
            have hentries' := scgPhaseB_nonneg entries cf pc rem2 total2 hrem2 hentries
            exact ih.2.1 keys (scgPhaseB entries cf pc rem2 total2).2
              (scgPhaseB entries cf pc rem2 total2).1 pfk ft km ft2 km2 hft
              hentries' hC

/-- C8: counterexample.  On `sC8` — whose child carries
`Exact(-5)`/`Exact(-3)` fills — a completing solve stores a frame with
negative lengths, refuting the claim for arbitrary `Exact` values: the
source clamps `Exact` only from above (`min` with the remaining length),
never from below. -/
theorem c8_counterexample_negative_exact :
    (Solver.solve sC8 10 10 50).bind (fun s => s.get_frame 1) =
      some ⟨0, -5, 0, -3⟩ ∧
    ¬ (0 : ℚ) ≤ -5 := by
  constructor
  · with_unfolding_all decide
  · norm_num

/-- C8 (amended): provided every `Exact` value and every padding component
stored in the constraint tree is non-negative, every frame stored in the
frame tree after a completing solve on a dirty, non-empty tree has
non-negative lengths on both axes, for every pair of lengths passed to
`solve`. -/
theorem c8_amended_nonneg (s : Solver) (lx ly : ℚ) (fuel : ℕ) (s' : Solver)
    (hn : s.constraint_tree.allNonneg) (hd : s.is_dirty = true)
    (he : s.constraint_tree.isEmptyTree = false)
    (hs : Solver.solve s lx ly fuel = some s') :
    s'.frame_tree.framesNonneg := by
  unfold Solver.solve at hs
  rw [hd, he] at hs
  dsimp only at hs
  cases hst : solveTree s.constraint_tree fuel s.frame_tree s.key_map
      (max lx 0) (max ly 0) with
  | none => rw [hst] at hs; cases hs
  | some p =>
      rw [hst] at hs
      obtain ⟨ft', km'⟩ := p
      cases hs
      unfold solveTree at hst
      simp only [Option.bind_eq_bind, Option.bind_eq_some, Option.pure_def,
        Option.some.injEq] at hst
      obtain ⟨⟨rk, rn⟩, hroot, lxv, hlx, lyv, hly, hsck⟩ := hst
      have hlx0 : 0 ≤ lxv := by
        cases haf : (rn.value.fill.to_absolute_fill .Vertical).x with
        | Exact v => rw [haf] at hlx; cases hlx
        | Minimize => rw [haf] at hlx; cases hlx
        | Scale w =>
            rw [haf] at hlx
            cases w with
            | zero =>
                simp only [Option.some.injEq] at hlx
                subst hlx
                exact le_rfl
            | succ n =>
                simp only [Option.some.injEq] at hlx
                subst hlx
                exact le_max_right _ _
      have hly0 : 0 ≤ lyv := by
        cases haf : (rn.value.fill.to_absolute_fill .Vertical).y with
        | Exact v => rw [haf] at hly; cases hly
        | Minimize => rw [haf] at hly; cases hly
        | Scale w =>
            rw [haf] at hly
            cases w with
            | zero =>
                simp only [Option.some.injEq] at hly
                subst hly
                exact le_rfl
            | succ n =>
                simp only [Option.some.injEq] at hly
                subst hly
                exact le_max_right _ _
      have hft1 : ((s.frame_tree.insert_root_with_capacity ⟨0, lxv, 0, lyv⟩
          rn.childKeys.length).2).framesNonneg := by
        intro p hp
        simp only [KTree.insert_root_with_capacity, List.mem_singleton] at hp
        subst hp
        exact ⟨hlx0, hly0⟩
      exact (scg_nonneg_master s.constraint_tree hn fuel).2.2 rn.childKeys
        (s.frame_tree.insert_root_with_capacity ⟨0, lxv, 0, lyv⟩
          rn.childKeys.length).1
        (generate_content_frame rn.value.content.padding lxv lyv)
        rn.value.content _ _ ft' km' (gcf_nonneg _ _ _).1 (gcf_nonneg _ _ _).2
        hft1 hsck

/-- Witness for C8 at the concrete non-negative tree `sC10`. -/
theorem c8_witness :
    ((Solver.solve sC10 10 10 50).getD Solver.emptySolver).frame_tree.framesNonneg :=
  c8_amended_nonneg sC10 10 10 50
    ((Solver.solve sC10 10 10 50).getD Solver.emptySolver)
    (by decide) (by decide) (by decide) (by with_unfolding_all decide)

/-! ### Claim C10: correlation map and frame tree across solves -/

/-- The first pass produces exactly one entry per child key. -/
theorem scgLoopA_length (t : KTree Constraint) (f : ℕ) :
    ∀ todo cf pc rem total entries rem2 total2,
      scgLoopA t f todo cf pc rem total = some (entries, rem2, total2) →
      entries.length = todo.length := by
  induction f with
  | zero =>
      intro todo cf pc rem total entries rem2 total2 h
      simp [scgLoopA] at h
  | succ f ih =>
      intro todo cf pc rem total entries rem2 total2 h
      cases todo with
      | nil =>
          simp only [scgLoopA, Option.some.injEq, Prod.mk.injEq] at h
          obtain ⟨h1, _⟩ := h
          subst h1
          rfl
      | cons k ks =>
          simp only [scgLoopA, Option.bind_eq_bind, Option.bind_eq_some,
            Option.pure_def, Option.some.injEq, Prod.mk.injEq] at h
          obtain ⟨nd, hnd, ⟨lxO, cache, rem1, total1⟩, hbr, ly, hly,
            ⟨rest, remF, totF⟩, hrec, h1, h2, h3⟩ := h
          subst h1
          simp [ih ks cf pc rem1 total1 rest remF totF hrec]

/-- The proportional-distribution pass preserves the number of entries. -/
theorem scgPhaseB_length (entries : List PassEntry) (cf : Frame) (pc : Content)
    (rem : ℚ) (total : ℕ) :
    (scgPhaseB entries cf pc rem total).2.length = entries.length := by
  cases total with
  | zero => rfl
  | succ n => simp [scgPhaseB]

/-- Synchronization of `solve_child_keys` with the `visitedHead` walk: a
completing solve pass inserts a correlation entry for every visited key and
leaves the entry of every unvisited key exactly as it was. -/
theorem visited_master (t : KTree Constraint) (f : ℕ) :
    (∀ keys pfk cf pc ft km ft2 km2 L,
      solve_child_keys t f keys pfk cf pc ft km = some (ft2, km2) →
      visitedHead t f keys = some L →
      (∀ x ∈ L, (assocLookup km2 x).isSome = true) ∧
      (∀ x, x ∉ L → assocLookup km2 x = assocLookup km x)) ∧
    (∀ todo entries ox pfk ft km ft2 km2 L, todo.length = entries.length →
      scgLoopC t f todo entries ox pfk ft km = some (ft2, km2) →
      visitedLoop t f todo = some L →
      (∀ x ∈ L, (assocLookup km2 x).isSome = true) ∧
      (∀ x, x ∉ L → assocLookup km2 x = assocLookup km x)) := by
  induction f with
  | zero =>
      constructor
      · intro keys pfk cf pc ft km ft2 km2 L h hv
        simp [solve_child_keys] at h
      · intro todo entries ox pfk ft km ft2 km2 L hlen h hv
        simp [scgLoopC] at h
  | succ f ih =>
      constructor
      · intro keys pfk cf pc ft km ft2 km2 L h hv
        cases hd : pc.direction with
        | Vertical => rw [solve_child_keys, hd] at h; cases h
        | Horizontal =>
            rw [solve_child_keys, hd] at h
            simp only [Option.bind_eq_bind, Option.bind_eq_some] at h
            obtain ⟨⟨entries, rem2, total2⟩, hA, hC⟩ := h
            have hlenA := scgLoopA_length t f keys cf pc cf.length_x 0 entries
              rem2 total2 hA
            simp only [visitedHead] at hv
            exact ih.2 keys (scgPhaseB entries cf pc rem2 total2).2
              (scgPhaseB entries cf pc rem2 total2).1 pfk ft km ft2 km2 L
              (by rw [scgPhaseB_length, hlenA]) hC hv
      · intro todo entries ox pfk ft km ft2 km2 L hlen h hv
        cases todo with
        | nil =>
            simp only [visitedLoop, Option.some.injEq] at hv
            subst hv
            simp only [scgLoopC, Option.some.injEq, Prod.mk.injEq] at h
            obtain ⟨_, h2⟩ := h
            subst h2
            exact ⟨by simp, fun x _ => rfl⟩
        | cons k ks =>
            cases entries with
            | nil => simp at hlen
            | cons e es =>
                simp only [scgLoopC, Option.bind_eq_bind, Option.bind_eq_some,
                  Option.pure_def, Option.some.injEq] at h
                obtain ⟨nd, hnd, fk, hfk, ⟨ftM, kmM⟩, hsck, hloop⟩ := h
                simp only [visitedLoop, Option.bind_eq_bind, Option.bind_eq_some,
                  Option.pure_def, Option.some.injEq, hnd, exists_eq_left'] at hv
                obtain ⟨sub, hsub, rest, hrest, hL⟩ := hv
                obtain ⟨hsub1, hsub2⟩ := ih.1 _ _ _ _ _ _ _ _ _ hsck hsub
                obtain ⟨hrest1, hrest2⟩ := ih.2 _ _ _ _ _ _ _ _ _
                  (by simpa using hlen) hloop hrest
                subst hL
                constructor
                · intro x hx
                  rcases List.mem_cons.mp hx with rfl | hx'
                  · by_cases hkr : x ∈ rest
                    · exact hrest1 _ hkr
                    · rw [hrest2 _ hkr]
                      by_cases hks : x ∈ sub
                      · exact hsub1 _ hks
                      · rw [hsub2 _ hks, assocLookup_assocInsert]
                        simp
                  · rcases List.mem_append.mp hx' with hxs | hxr
                    · by_cases hkr : x ∈ rest
                      · exact hrest1 _ hkr
                      · rw [hrest2 _ hkr]
                        exact hsub1 _ hxs
                    · exact hrest1 _ hxr
                · intro x hx
                  have hxk : ¬ x = k := fun hh =>
                    hx (hh ▸ List.mem_cons_self _ _)
                  have hxs : x ∉ sub := fun hh =>
                    hx (List.mem_cons_of_mem _ (List.mem_append.mpr (Or.inl hh)))
                  have hxr : x ∉ rest := fun hh =>
                    hx (List.mem_cons_of_mem _ (List.mem_append.mpr (Or.inr hh)))
                  rw [hrest2 _ hxr, hsub2 _ hxs, assocLookup_assocInsert,
                    if_neg hxk]

/-- The layout solver depends on the previous frame tree only through its
key counter: all previously stored frame nodes are discarded. -/
theorem solveTree_nextKey (t : KTree Constraint) (fuel : ℕ) (ft1 ft2 : KTree Frame)
    (km : List (ℕ × ℕ)) (lx ly : ℚ) (h : ft1.nextKey = ft2.nextKey) :
    solveTree t fuel ft1 km lx ly = solveTree t fuel ft2 km lx ly := by
  unfold solveTree KTree.insert_root_with_capacity
  rw [h]

/-- C10: counterexample.  Solve `sC10`, remove the child (key 1), solve
again: the second solve completes, yet the correlation map still holds an
entry for the removed key 1 — the map is not rebuilt in full, so its
entries are not exactly one per key currently in the constraint tree. -/
theorem c10_counterexample_stale :
    sC10'.map (fun s => (assocLookup s.key_map 1, s.constraint_tree.containsKey 1)) =
      some (some 1, false) := by
  with_unfolding_all decide

/-- C10 (amended): a completing solve on a dirty, non-empty tree inserts a
correlation entry for every key currently in the constraint tree
(overwriting previous ones) and regenerates the frame tree from the key
counter alone, discarding all previously stored frame nodes; however
correlation entries for since-removed constraint keys are retained
unchanged, not discarded.  The tree is described by its root and the
visited-key list `L` of the solve walk. -/
theorem c10_amended_correlation (s : Solver) (lx ly : ℚ) (fuel : ℕ) (s' : Solver)
    (rk : ℕ) (rn : KNode Constraint) (L : List ℕ)
    (hd : s.is_dirty = true) (he : s.constraint_tree.isEmptyTree = false)
    (hroot : s.constraint_tree.root_key_value = some (rk, rn))
    (hvis : visitedHead s.constraint_tree fuel rn.childKeys = some L)
    (hwf1 : ∀ p ∈ s.constraint_tree.nodes, p.1 = rk ∨ p.1 ∈ L)
    (hwf2 : ∀ k ∈ L, s.constraint_tree.containsKey k = true)
    (hwf3 : s.constraint_tree.containsKey rk = true)
    (hs : Solver.solve s lx ly fuel = some s') :
    (∀ k, s.constraint_tree.containsKey k = true →
      (assocLookup s'.key_map k).isSome = true) ∧
    (∀ k, s.constraint_tree.containsKey k = false →
      assocLookup s'.key_map k = assocLookup s.key_map k) ∧
    (∀ ft2 : KTree Frame, ft2.nextKey = s.frame_tree.nextKey →
      Solver.solve { s with frame_tree := ft2 } lx ly fuel = some s') := by
  unfold Solver.solve at hs
  rw [hd, he] at hs
  dsimp only at hs
  cases hst : solveTree s.constraint_tree fuel s.frame_tree s.key_map
      (max lx 0) (max ly 0) with
  | none => rw [hst] at hs; cases hs
  | some p =>
      rw [hst] at hs
      obtain ⟨ft', km'⟩ := p
      cases hs
      have hst' := hst
      unfold solveTree at hst'
      simp only [Option.bind_eq_bind, Option.bind_eq_some, Option.pure_def,
        Option.some.injEq] at hst'
      obtain ⟨⟨rk2, rn2⟩, hroot2, lxv, hlx, lyv, hly, hsck⟩ := hst'
      have hrr : rk2 = rk ∧ rn2 = rn := by
        have hcomb := hroot.symm.trans hroot2
        simp only [Option.some.injEq, Prod.mk.injEq] at hcomb
        exact ⟨hcomb.1.symm, hcomb.2.symm⟩
      obtain ⟨hrk, hrn⟩ := hrr
      subst hrk
      subst hrn
      obtain ⟨hm1, hm2⟩ := (visited_master s.constraint_tree fuel).1 _ _ _ _ _ _
        _ _ _ hsck hvis
      refine ⟨?_, ?_, ?_⟩
      · intro k hk
        obtain ⟨nd, hnd⟩ := Option.isSome_iff_exists.mp hk
        have hmem := assocLookup_mem hnd
        rcases hwf1 (k, nd) hmem with hkrk | hkL
        · dsimp only at hkrk
          by_cases hkL : k ∈ L
          · exact hm1 _ hkL
          · rw [hm2 _ hkL, assocLookup_assocInsert, if_pos hkrk]
            rfl
        · exact hm1 _ hkL
      · intro k hk
        have hkL : k ∉ L := fun hh => by rw [hwf2 k hh] at hk; cases hk
        have hkrk : ¬ k = rk2 := fun hh => by rw [hh, hwf3] at hk; cases hk
        rw [hm2 _ hkL, assocLookup_assocInsert, if_neg hkrk]
      · intro ft2 hn2
        unfold Solver.solve
        dsimp only
        rw [hd, he]
        dsimp only
        rw [solveTree_nextKey s.constraint_tree fuel ft2 s.frame_tree s.key_map
          (max lx 0) (max ly 0) hn2, hst]

/-- Witness for C10: after solving `sC10`, its single child key 1 has a
correlation entry. -/
theorem c10_witness :
    (assocLookup ((Solver.solve sC10 10 10 50).getD Solver.emptySolver).key_map
      1).isSome = true :=
  (c10_amended_correlation sC10 10 10 50
    ((Solver.solve sC10 10 10 50).getD Solver.emptySolver) 0 ⟨cRootH, [1]⟩ [1]
    (by decide) (by decide) (by decide) (by decide) (by decide) (by decide)
    (by decide) (by with_unfolding_all decide)).1 1 (by decide)
